import Mathlib

/-!
Verification development for the `freenas_manager` host-registry core
(`freenas_manager/__init__.py` and `freenas_manager/__main__.py`).

The embedding works at the level of character codes (`Nat` code points):
a Python string is modelled as the list of code points of its characters.
Pure helpers (`Host.format_mac`, built on Python's `int(token, 16)` and
`f"{token:02x}"`) are modelled as executable functions on code lists; the
class-level instance table `Host.__instances__` is modelled as an
association list with Python-`dict` semantics; the coroutine
`Host.heart_beat` is modelled as a labelled transition system whose only
suspension point (the `await asyncio.sleep(15)`) is where cancellation can
be observed.
-/

set_option autoImplicit false

namespace FreenasManager

/-! ### Character-code utilities -/

/-- ASCII lowercasing of one code point, as Python's `str.lower` acts on
ASCII: uppercase letters `A`-`Z` (65-90) are shifted by 32, everything
else is unchanged. -/
def lowerN (n : Nat) : Nat :=
  if 65 ≤ n ∧ n ≤ 90 then n + 32 else n

/-- The characters stripped by Python's `int()` conversion: space, tab,
newline, carriage return, vertical tab, form feed. -/
def pySpace (n : Nat) : Bool :=
  n == 32 || n == 9 || n == 10 || n == 13 || n == 11 || n == 12

/-- Value of one hexadecimal digit character (`0`-`9`, `a`-`f`, `A`-`F`),
or `none` for any other character. -/
def hexDigitVal (n : Nat) : Option Nat :=
  if 48 ≤ n ∧ n ≤ 57 then some (n - 48)
  else if 97 ≤ n ∧ n ≤ 102 then some (n - 97 + 10)
  else if 65 ≤ n ∧ n ≤ 70 then some (n - 65 + 10)
  else none

/-- Lowercase hexadecimal digit character for a value below 16, as
produced by Python's `x` format conversion. -/
def hexChar (d : Nat) : Nat :=
  if d < 10 then 48 + d else 97 + (d - 10)

/-! ### Python `int(token, 16)`

`Host.format_mac` parses each token with the builtin `int(token, 16)`:
surrounding whitespace is stripped, an optional single sign and an
optional `0x`/`0X` prefix are accepted, and the digit run must be
nonempty hexadecimal with single underscores allowed only between digits
(and directly after the prefix). -/

/-- Strip `int()` whitespace from both ends of a code list. -/
def stripWs (l : List Nat) : List Nat :=
  ((l.dropWhile pySpace).reverse.dropWhile pySpace).reverse

/-- Continue a hexadecimal digit run after at least one digit has been
read, accumulating the value; a single underscore (code 95) is allowed
only when followed by another digit. -/
def hexRest : Nat → List Nat → Option Nat
  | acc, [] => some acc
  | acc, n :: rest =>
    if n = 95 then
      match rest with
      | [] => none
      | m :: rest2 =>
        match hexDigitVal m with
        | some d => hexRest (acc * 16 + d) rest2
        | none => none
    else
      match hexDigitVal n with
      | some d => hexRest (acc * 16 + d) rest
      | none => none

/-- A nonempty hexadecimal digit run that must start with a digit. -/
def hexBody : List Nat → Option Nat
  | [] => none
  | n :: rest =>
    match hexDigitVal n with
    | some d => hexRest d rest
    | none => none

/-- Digit run directly after a `0x` prefix: one leading underscore is
additionally allowed there (`int("0x_ff", 16)` succeeds). -/
def hexAfter0x : List Nat → Option Nat
  | [] => hexBody []
  | n :: rest => if n = 95 then hexBody rest else hexBody (n :: rest)

/-- Magnitude part of `int(s, 16)`: an optional `0x`/`0X` prefix (codes
48 then 120/88) followed by the digit run. -/
def parseMag : List Nat → Option Nat
  | [] => hexBody []
  | [n] => hexBody [n]
  | n :: x :: rest =>
    if n = 48 ∧ (x = 120 ∨ x = 88) then hexAfter0x rest
    else hexBody (n :: x :: rest)

/-- Python's `int(s, 16)` on the code list of `s` (ASCII fragment):
`none` models the `ValueError` that `Host.format_mac` turns into `None`.
Codes 43/45 are `+`/`-`. -/
def pyIntHex (l : List Nat) : Option Int :=
  match stripWs l with
  | [] => none
  | n :: rest =>
    if n = 43 then (parseMag rest).map Int.ofNat
    else if n = 45 then (parseMag rest).map (fun m => -(Int.ofNat m))
    else (parseMag (n :: rest)).map Int.ofNat

/-! ### Python `f"{token:02x}"` -/

/-- Hexadecimal digit characters of `n`, most significant first,
lowercase, nonempty (`[48]` for zero). The first argument is structural
fuel; `natHex` supplies enough. -/
def natHexAux : Nat → Nat → List Nat
  | 0, _ => []
  | fuel + 1, n =>
    if n < 16 then [hexChar n]
    else natHexAux fuel (n / 16) ++ [hexChar (n % 16)]

/-- Hexadecimal digit characters of `n`, most significant first. -/
def natHex (n : Nat) : List Nat :=
  natHexAux (n + 1) n

/-- Left-pad with `0` characters (code 48) to width `w`, as the `0` fill
of a Python format specification does. -/
def zfill (w : Nat) (l : List Nat) : List Nat :=
  List.replicate (w - l.length) 48 ++ l

/-- Python's `f"{v:02x}"`: lowercase hexadecimal, zero-padded to a total
width of two; for a negative value the sign (code 45) counts toward the
width and the padding sits between sign and digits. -/
def fmt02x (v : Int) : List Nat :=
  if v < 0 then 45 :: zfill 1 (natHex v.natAbs)
  else zfill 2 (natHex v.toNat)

/-- Valuation of a run of hexadecimal digit characters, most significant
first, extending an accumulator — the number `hexRest` accumulates. -/
def hexVal (acc : Nat) (l : List Nat) : Nat :=
  l.foldl (fun a x => a * 16 + (hexDigitVal x).getD 0) acc

/-! ### `Host.format_mac` -/

/-- Python's `"...".split(":")` on a code list (58 is `:`): always
nonempty, empty tokens preserved. -/
def splitColon : List Nat → List (List Nat)
  | [] => [[]]
  | n :: rest =>
    if n = 58 then [] :: splitColon rest
    else
      match splitColon rest with
      | [] => [[n]]
      | t :: ts => (n :: t) :: ts

/-- Python's `":".join(...)` on code lists. -/
def joinColon : List (List Nat) → List Nat
  | [] => []
  | [t] => t
  | t :: ts => t ++ 58 :: joinColon ts

/-- The list comprehension `[int(token, 16) for token in tokens]` under
the surrounding `try`: the first `ValueError` aborts the whole
conversion. -/
def mapPyIntHex : List (List Nat) → Option (List Int)
  | [] => some []
  | t :: ts =>
    match pyIntHex t with
    | none => none
    | some v =>
      match mapPyIntHex ts with
      | none => none
      | some vs => some (v :: vs)

/-- `Host.format_mac` on a code list: split on `:`, parse every token as
hexadecimal, re-render each value with `f"{token:02x}"` and join with
`:`; any `ValueError` yields `none`. -/
def format_mac_c (l : List Nat) : Option (List Nat) :=
  match mapPyIntHex (splitColon l) with
  | none => none
  | some vs => some (joinColon (vs.map fmt02x))

/-- Code points of a Lean string, the representation of a Python string
used throughout. -/
def codes (s : String) : List Nat :=
  s.data.map Char.toNat

/-- Rebuild a string from output code points (all ASCII). -/
def ofCodes (l : List Nat) : String :=
  String.mk (l.map Char.ofNat)

/-- `Host.format_mac` on strings (the `@staticmethod` of class `Host`). -/
def format_mac (s : String) : Option String :=
  (format_mac_c (codes s)).map ofCodes

/-- The code points of a string after Python `str.lower` (ASCII): the
form in which two raw strings "differing only in letter case" agree. -/
def lowerCodes (s : String) : List Nat :=
  (codes s).map lowerN

/-! ### The `Host` class and its instance registry

A `Host` object is a record of its Python attributes; the Python `None`
values of `_ip`/`_name`/`_type` are the `none` of `Option String`.
`wall_up` models `dt.datetime.now()` at first construction, `loop_up`
and `last_refresh` model `loop.time()` readings; both clocks are opaque
`Nat` inputs.  The always-created heartbeat task handle carries no data
relevant to the registry and is modelled by the Boolean `task`. -/

structure Host where
  mac : String
  ip : Option String
  name : Option String
  type : Option String
  updated : Bool
  wall_up : Nat
  loop_up : Nat
  task : Bool
  last_refresh : Nat
deriving DecidableEq, Repr

/-- The class attribute `Host.__instances__`: a Python `dict` keyed by
formatted mac, modelled as an association list with unique keys. -/
abbrev Instances := List (String × Host)

/-- `dict` lookup (`d[k]` / `k in d`), `none` when the key is absent. -/
def dictGet : Instances → String → Option Host
  | [], _ => none
  | (k, v) :: rest, key => if k = key then some v else dictGet rest key

/-- `dict` assignment `d[k] = v`: replace the entry in place if the key
is present, append otherwise. -/
def dictSet : Instances → String → Host → Instances
  | [], key, v => [(key, v)]
  | (k, w) :: rest, key, v =>
    if k = key then (key, v) :: rest else (k, w) :: dictSet rest key v

/-- `dict.pop(k)` with no default: removes the entry and returns the
remaining dict, or `none` — modelling the `KeyError` — when the key is
absent. -/
def dictPop : Instances → String → Option Instances
  | [], _ => none
  | (k, w) :: rest, key =>
    if k = key then some rest else (dictPop rest key).map (fun r => (k, w) :: r)

/-- `Host.update_if_better(field, value)`: the attribute is (re)assigned
iff it does not exist yet or the new value is not `None`.  `hasField`
models `hasattr(self, field)`. -/
def update_if_better (hasField : Bool) (current value : Option String) : Option String :=
  if !hasField || value.isSome then value else current

/-- `Host.destroy`: `self.__instances__.pop(self.mac)`; `none` models
the `KeyError` raised when the mac is no longer in the table. -/
def Host.destroy (inst : Instances) (mac : String) : Option Instances :=
  dictPop inst mac

/-- One call `Host(mac, ip=..., name=..., type=...)`: `__new__` formats
the mac, asserts it is not `None` (`none` result models the
`AssertionError`), and looks up or creates the instance; `__init__` then
runs on that instance — re-formatting the raw mac, asserting an existing
instance's `mac` attribute matches, merging the three optional fields
with `update_if_better`, resetting `_updated` to `False`, setting
`wall_up`/`loop_up` and the heartbeat task only when absent, and always
writing `last_refresh`.  `wall` and `now` are the two clock readings. -/
def Host.call (inst : Instances) (mac : String) (ip name type : Option String)
    (wall now : Nat) : Option Instances :=
  match format_mac mac with
  | none => none
  | some m =>
    match dictGet inst m with
    | none =>
      some (dictSet inst m
        { mac := m
          ip := update_if_better false none ip
          name := update_if_better false none name
          type := update_if_better false none type
          updated := false
          wall_up := wall
          loop_up := now
          task := true
          last_refresh := now })
    | some h0 =>
      if h0.mac = m then
        some (dictSet inst m
          { h0 with
            mac := m
            ip := update_if_better true h0.ip ip
            name := update_if_better true h0.name name
            type := update_if_better true h0.type type
            updated := false
            last_refresh := now })
      else none

/-- The three attributes routed through the `ip`/`name`/`type` property
setters. -/
inductive HostField
  | fip
  | fname
  | ftype
deriving DecidableEq, Repr

def Host.get_field (h : Host) : HostField → Option String
  | .fip => h.ip
  | .fname => h.name
  | .ftype => h.type

def Host.set_field (h : Host) : HostField → Option String → Host
  | .fip, v => { h with ip := v }
  | .fname, v => { h with name := v }
  | .ftype, v => { h with type := v }

/-- `Host.set_and_flag(field, value)` (the body of every property
setter): assign and set `_updated = True` only when the new value
differs from the current one and is not `None`. -/
def set_and_flag (h : Host) (f : HostField) (v : Option String) : Host :=
  if h.get_field f ≠ v ∧ v.isSome then
    { h.set_field f v with updated := true }
  else h

/-- Arguments of one upsert (`Host(...)` call) of the assembler stage,
with its two clock readings. -/
structure UpsertArgs where
  raw : String
  ip : Option String
  name : Option String
  type : Option String
  wall : Nat
  now : Nat

/-- A sequence of upserts threaded through the registry; `none` as soon
as one call raises. -/
def runUpserts (inst : Instances) : List UpsertArgs → Option Instances
  | [] => some inst
  | a :: rest =>
    match Host.call inst a.raw a.ip a.name a.type a.wall a.now with
    | none => none
    | some inst' => runUpserts inst' rest

/-! ### Pipeline stage bodies (`__main__.py`) -/

/-- One record handled by the body of `name_resolver`'s inner `for`
loop: format the router-reported mac (skip on `None`), and only when the
formatted mac is already a key of `Host.get_instances()` assign the
`name` and `type` properties of that host (each via `set_and_flag`).
An unknown mac leaves the table untouched. -/
def name_resolver_step (inst : Instances) (rmac : String)
    (rname rtype : Option String) : Instances :=
  match format_mac rmac with
  | none => inst
  | some mac =>
    match dictGet inst mac with
    | none => inst
    | some host =>
      dictSet inst mac
        (set_and_flag (set_and_flag host .fname rname) .ftype rtype)

/-- Result of `parse.parse("? ({ip}) at {mac} {reminder}", stdout)` when
it matches (the external `parse` library's output shape). -/
structure ArpParsed where
  ip : String
  mac : String
  reminder : String
deriving DecidableEq, Repr

/-- What one iteration of `mac_resolver`'s loop does with a dequeued
address. -/
inductive ResolverOutcome
  | skip
  | raiseError
  | put (item : ArpParsed)
deriving DecidableEq, Repr

/-- The substring test `"entries no match found" in stdout`. -/
def noMatchIn (s : String) : Bool :=
  decide (codes "entries no match found" <:+: codes s)

/-- One iteration of `mac_resolver` after the `arp` subprocess returned:
a non-zero return code `continue`s; a "no match" answer `continue`s; a
successful probe whose output did not match the parse pattern `raise`s
`TypeError`; otherwise the parsed record is put on the mac queue iff its
mac formats to a non-`None` value (a `None` result silently skips). -/
def mac_resolver_step (returncode : Int) (stdout : String)
    (parsed : Option ArpParsed) : ResolverOutcome :=
  if returncode ≠ 0 then .skip
  else if noMatchIn stdout then .skip
  else
    match parsed with
    | none => .raiseError
    | some p => if (format_mac p.mac).isSome then .put p else .skip

/-! ### `Host.heart_beat` as a labelled transition system

The coroutine is
`try: while self.dwell < 120: await asyncio.sleep(15)`
`except asyncio.CancelledError: raise`
`finally: ...` and only after the loop exits normally does it run
`self.destroy()`.  Its sole suspension point is the `await
asyncio.sleep(15)`, so that is the only place the event loop can deliver
`CancelledError`.  The dwell value read at each check is an input (it
depends on concurrent refreshes of `last_refresh`). -/

inductive HBState
  | checking
  | sleeping
  | evicted
  | cancelled
deriving DecidableEq, Repr

inductive HBEvt
  | enterSleep
  | wake
  | cancel
  | evict
deriving DecidableEq, Repr

/-- Small-step semantics of `heart_beat`.  `evict` is the transition
that performs `self.destroy()`; `cancel` is delivery of
`CancelledError` at the suspension point, re-raised by the `except`
clause so the coroutine ends without reaching `destroy`. -/
inductive HBStep : HBState → HBEvt → HBState → Prop
  | enterSleep (dwell : Nat) : dwell < 120 → HBStep .checking .enterSleep .sleeping
  | evict (dwell : Nat) : ¬ dwell < 120 → HBStep .checking .evict .evicted
  | wake : HBStep .sleeping .wake .checking
  | cancel : HBStep .sleeping .cancel .cancelled

/-- Reflexive-transitive executions of `heart_beat`, recording the event
sequence. -/
inductive HBTrace : HBState → List HBEvt → HBState → Prop
  | refl (s : HBState) : HBTrace s [] s
  | cons {s s' s'' : HBState} {e : HBEvt} {evts : List HBEvt} :
      HBStep s e s' → HBTrace s' evts s'' → HBTrace s (e :: evts) s''

/-- Effect of one `heart_beat` event on the registry: only `evict` acts,
by calling `Host.destroy`. -/
def HBEffect (mac : String) (inst : Instances) : HBEvt → Option Instances
  | .evict => Host.destroy inst mac
  | _ => some inst

/-- Registry after a `heart_beat` event sequence. -/
def HBRun (mac : String) (inst : Instances) : List HBEvt → Option Instances
  | [] => some inst
  | e :: evts =>
    match HBEffect mac inst e with
    | none => none
    | some inst' => HBRun mac inst' evts

/-- Well-formedness of the instance table: every stored host's `mac`
attribute equals its key.  `Host.__new__` keys the table by the
formatted mac it also passes along to `__init__`, which stores it, so
the table always satisfies this. -/
def RegOk (inst : Instances) : Prop :=
  ∀ p ∈ inst, (Prod.snd p).mac = Prod.fst p

/-! ### `format_mac` lemmas -/

theorem pySpace_lowerN (n : Nat) : pySpace (lowerN n) = pySpace n := by
  rw [Bool.eq_iff_iff]
  unfold lowerN pySpace
  split
  · simp only [Bool.or_eq_true, beq_iff_eq]
    omega
  · rfl

theorem hexDigitVal_lowerN (n : Nat) : hexDigitVal (lowerN n) = hexDigitVal n := by
  unfold lowerN hexDigitVal
  split_ifs <;> first | rfl | (exact congrArg some (by omega)) | (exfalso; omega)

theorem lowerN_eq_iff (n k : Nat) (hk : k < 65 ∨ (91 ≤ k ∧ k < 97) ∨ 123 ≤ k) :
    lowerN n = k ↔ n = k := by
  unfold lowerN
  split <;> omega

theorem lowerN_x_iff (x : Nat) : (lowerN x = 120 ∨ lowerN x = 88) ↔ (x = 120 ∨ x = 88) := by
  unfold lowerN
  split <;> omega


theorem stripWs_map_lowerN (l : List Nat) :
    stripWs (l.map lowerN) = (stripWs l).map lowerN := by
  unfold stripWs
  have hp : (pySpace ∘ lowerN) = pySpace := funext pySpace_lowerN
  rw [List.dropWhile_map, hp, ← List.map_reverse, List.dropWhile_map, hp, ← List.map_reverse]

theorem hexRest_map_lowerN (acc : Nat) (l : List Nat) :
    hexRest acc (l.map lowerN) = hexRest acc l := by
  induction acc, l using hexRest.induct with
  | case1 acc => rfl
  | case2 acc =>
    simp [hexRest, show lowerN 95 = 95 from by decide]
  | case3 acc m rest2 d hd ih =>
    simp [hexRest, hexDigitVal_lowerN, hd, ih, show lowerN 95 = 95 from by decide]
  | case4 acc m rest2 hd =>
    simp [hexRest, hexDigitVal_lowerN, hd, show lowerN 95 = 95 from by decide]
  | case5 acc n rest hn d hd ih =>
    have hn2 : ¬ lowerN n = 95 := by rw [lowerN_eq_iff n 95 (by omega)]; exact hn
    cases rest with
    | nil => simp [hexRest, hn, hn2, hexDigitVal_lowerN, hd]
    | cons m rest2 =>
      simp only [List.map_cons] at ih
      simp [hexRest, hn, hn2, hexDigitVal_lowerN, hd, ih]
  | case6 acc n rest hn hd =>
    have hn2 : ¬ lowerN n = 95 := by rw [lowerN_eq_iff n 95 (by omega)]; exact hn
    cases rest with
    | nil => simp [hexRest, hn, hn2, hexDigitVal_lowerN, hd]
    | cons m rest2 => simp [hexRest, hn, hn2, hexDigitVal_lowerN, hd]

theorem hexBody_map_lowerN (l : List Nat) : hexBody (l.map lowerN) = hexBody l := by
  cases l with
  | nil => rfl
  | cons n rest =>
    simp only [List.map_cons, hexBody, hexDigitVal_lowerN]
    cases hd : hexDigitVal n <;> simp [hd, hexRest_map_lowerN]

theorem hexAfter0x_map_lowerN (l : List Nat) : hexAfter0x (l.map lowerN) = hexAfter0x l := by
  cases l with
  | nil => rfl
  | cons n rest =>
    by_cases hn : n = 95
    · subst hn
      simp [hexAfter0x, show lowerN 95 = 95 from by decide, hexBody_map_lowerN]
    · have hn2 : ¬ lowerN n = 95 := by rw [lowerN_eq_iff n 95 (by omega)]; exact hn
      simp only [List.map_cons, hexAfter0x]
      rw [if_neg hn2, if_neg hn, ← List.map_cons, hexBody_map_lowerN]

theorem parseMag_map_lowerN (l : List Nat) : parseMag (l.map lowerN) = parseMag l := by
  match l with
  | [] => rfl
  | [n] =>
    simp only [List.map_cons, List.map_nil, parseMag]
    rw [show [lowerN n] = [n].map lowerN from rfl, hexBody_map_lowerN]
  | n :: x :: rest =>
    by_cases hc : n = 48 ∧ (x = 120 ∨ x = 88)
    · have hc2 : lowerN n = 48 ∧ (lowerN x = 120 ∨ lowerN x = 88) := by
        refine ⟨?_, (lowerN_x_iff x).mpr hc.2⟩
        rw [lowerN_eq_iff n 48 (by omega)]
        exact hc.1
      simp only [List.map_cons, parseMag, if_pos hc, if_pos hc2]
      exact hexAfter0x_map_lowerN rest
    · have hc2 : ¬ (lowerN n = 48 ∧ (lowerN x = 120 ∨ lowerN x = 88)) := by
        rw [lowerN_eq_iff n 48 (by omega), lowerN_x_iff]
        exact hc
      simp only [List.map_cons, parseMag, if_neg hc, if_neg hc2]
      rw [show lowerN n :: lowerN x :: rest.map lowerN = (n :: x :: rest).map lowerN from rfl,
        hexBody_map_lowerN]

theorem pyIntHex_map_lowerN (l : List Nat) : pyIntHex (l.map lowerN) = pyIntHex l := by
  unfold pyIntHex
  rw [stripWs_map_lowerN]
  cases hs : stripWs l with
  | nil => rfl
  | cons n rest =>
    simp only [List.map_cons]
    by_cases h43 : n = 43
    · subst h43
      simp [show lowerN 43 = 43 from by decide, parseMag_map_lowerN]
    · have h43b : ¬ lowerN n = 43 := by rw [lowerN_eq_iff n 43 (by omega)]; exact h43
      by_cases h45 : n = 45
      · subst h45
        simp [show lowerN 45 = 45 from by decide, parseMag_map_lowerN]
      · have h45b : ¬ lowerN n = 45 := by rw [lowerN_eq_iff n 45 (by omega)]; exact h45
        rw [if_neg h43b, if_neg h43, if_neg h45b, if_neg h45,
          show lowerN n :: rest.map lowerN = (n :: rest).map lowerN from rfl,
          parseMag_map_lowerN]

theorem splitColon_ne_nil (l : List Nat) : splitColon l ≠ [] := by
  cases l with
  | nil => simp [splitColon]
  | cons n rest =>
    unfold splitColon
    split
    · simp
    · split <;> simp

theorem splitColon_map_lowerN (l : List Nat) :
    splitColon (l.map lowerN) = (splitColon l).map (List.map lowerN) := by
  induction l with
  | nil => rfl
  | cons n rest ih =>
    obtain ⟨t, ts, ht⟩ : ∃ t ts, splitColon rest = t :: ts := by
      cases hsp : splitColon rest with
      | nil => exact absurd hsp (splitColon_ne_nil rest)
      | cons t ts => exact ⟨t, ts, rfl⟩
    by_cases h58 : n = 58
    · subst h58
      simp [splitColon, show lowerN 58 = 58 from by decide, ih]
    · have h58b : ¬ lowerN n = 58 := by rw [lowerN_eq_iff n 58 (by omega)]; exact h58
      simp [splitColon, h58, h58b, ih, ht]

theorem mapPyIntHex_map_lowerN (ts : List (List Nat)) :
    mapPyIntHex (ts.map (List.map lowerN)) = mapPyIntHex ts := by
  induction ts with
  | nil => rfl
  | cons t ts ih =>
    simp only [List.map_cons, mapPyIntHex, pyIntHex_map_lowerN, ih]

theorem format_mac_c_map_lowerN (l : List Nat) :
    format_mac_c (l.map lowerN) = format_mac_c l := by
  unfold format_mac_c
  rw [splitColon_map_lowerN, mapPyIntHex_map_lowerN]

theorem hexDigitVal_isSome_iff (n : Nat) : (hexDigitVal n).isSome = true ↔
    (48 ≤ n ∧ n ≤ 57) ∨ (97 ≤ n ∧ n ≤ 102) ∨ (65 ≤ n ∧ n ≤ 70) := by
  unfold hexDigitVal
  split_ifs <;> simp <;> omega

theorem hexDigitVal_hexChar (d : Nat) (h : d < 16) : hexDigitVal (hexChar d) = some d := by
  unfold hexChar hexDigitVal
  split_ifs <;> first | (exact congrArg some (by omega)) | (exfalso; omega)

theorem hexChar_lt128 (d : Nat) (h : d < 16) : hexChar d < 128 := by
  unfold hexChar
  split <;> omega

theorem natHexAux_mem (fuel : Nat) : ∀ (n : Nat), n < fuel →
    ∀ x ∈ natHexAux fuel n, ∃ d, d < 16 ∧ x = hexChar d := by
  induction fuel with
  | zero => omega
  | succ f ih =>
    intro n hn x hx
    rw [natHexAux] at hx
    split at hx
    · rename_i h16
      simp only [List.mem_singleton] at hx
      exact ⟨n, h16, hx⟩
    · rename_i h16
      rcases List.mem_append.mp hx with hx | hx
      · have hdiv : n / 16 < f := by
          have := Nat.div_lt_self (show 0 < n by omega) (show 1 < 16 by omega)
          omega
        exact ih (n / 16) hdiv x hx
      · simp only [List.mem_singleton] at hx
        exact ⟨n % 16, Nat.mod_lt n (by omega), hx⟩

theorem natHexAux_ne_nil (fuel n : Nat) (h : n < fuel) : natHexAux fuel n ≠ [] := by
  cases fuel with
  | zero => omega
  | succ f =>
    rw [natHexAux]
    split
    · simp
    · simp

theorem hexVal_append (acc : Nat) (l1 l2 : List Nat) :
    hexVal acc (l1 ++ l2) = hexVal (hexVal acc l1) l2 :=
  List.foldl_append _ _ _ _

theorem hexVal_natHexAux (fuel : Nat) : ∀ (n : Nat), n < fuel → ∀ (acc : Nat),
    hexVal acc (natHexAux fuel n) = acc * 16 ^ (natHexAux fuel n).length + n := by
  induction fuel with
  | zero => omega
  | succ f ih =>
    intro n hn acc
    rw [natHexAux]
    split
    · rename_i h16
      simp [hexVal, hexDigitVal_hexChar n h16]
    · rename_i h16
      have hdiv : n / 16 < f := by
        have := Nat.div_lt_self (show 0 < n by omega) (show 1 < 16 by omega)
        omega
      rw [hexVal_append, ih (n / 16) hdiv acc]
      have hmod : hexVal (acc * 16 ^ (natHexAux f (n / 16)).length + n / 16) [hexChar (n % 16)] =
          (acc * 16 ^ (natHexAux f (n / 16)).length + n / 16) * 16 + n % 16 := by
        simp [hexVal, hexDigitVal_hexChar (n % 16) (Nat.mod_lt n (by omega))]
      rw [hmod, List.length_append, List.length_singleton, pow_succ]
      have h1 : (acc * 16 ^ (natHexAux f (n / 16)).length + n / 16) * 16 + n % 16 =
          acc * (16 ^ (natHexAux f (n / 16)).length * 16) + (n / 16 * 16 + n % 16) := by ring
      rw [h1]
      congr 1
      omega

theorem hexRest_all_digits : ∀ (acc : Nat) (l : List Nat),
    (∀ x ∈ l, (hexDigitVal x).isSome = true) → hexRest acc l = some (hexVal acc l) := by
  intro acc l
  induction acc, l using hexRest.induct with
  | case1 acc => intro _; rfl
  | case2 acc =>
    intro h
    have := h 95 (List.mem_singleton.mpr rfl)
    rw [hexDigitVal_isSome_iff] at this
    omega
  | case3 acc m rest2 d hd ih =>
    intro h
    have := h 95 (List.mem_cons_self _ _)
    rw [hexDigitVal_isSome_iff] at this
    omega
  | case4 acc m rest2 hd =>
    intro h
    have := h 95 (List.mem_cons_self _ _)
    rw [hexDigitVal_isSome_iff] at this
    omega
  | case5 acc n rest hn d hd ih =>
    intro h
    have heq := ih (fun x hx => h x (List.mem_cons_of_mem _ hx))
    cases rest with
    | nil => simp [hexRest, hn, hd, hexVal]
    | cons m rest2 =>
      simp only [hexRest, if_neg hn, hd] at heq ⊢
      rw [heq]
      simp [hexVal, hd]
  | case6 acc n rest hn hd =>
    intro h
    have := h n (List.mem_cons_self _ _)
    simp [hd] at this

theorem hexBody_all_digits (l : List Nat) (hne : l ≠ [])
    (h : ∀ x ∈ l, (hexDigitVal x).isSome = true) : hexBody l = some (hexVal 0 l) := by
  cases l with
  | nil => exact absurd rfl hne
  | cons n rest =>
    obtain ⟨d, hd⟩ := Option.isSome_iff_exists.mp (h n (List.mem_cons_self _ _))
    have heq := hexRest_all_digits d rest (fun x hx => h x (List.mem_cons_of_mem _ hx))
    simp only [hexBody, hd, heq]
    simp [hexVal, hd]


theorem dropWhile_eq_self_of_all {p : Nat → Bool} (l : List Nat)
    (h : ∀ x ∈ l, p x = false) : l.dropWhile p = l := by
  cases l with
  | nil => rfl
  | cons a rest =>
    rw [List.dropWhile_cons, h a (List.mem_cons_self _ _)]
    simp

theorem stripWs_eq_self (l : List Nat) (h : ∀ x ∈ l, pySpace x = false) :
    stripWs l = l := by
  unfold stripWs
  rw [dropWhile_eq_self_of_all l h, dropWhile_eq_self_of_all l.reverse
    (fun x hx => h x (List.mem_reverse.mp hx)), List.reverse_reverse]

theorem hexDigit_not_special (x : Nat) (h : (hexDigitVal x).isSome = true) :
    pySpace x = false ∧ x ≠ 43 ∧ x ≠ 45 ∧ x ≠ 58 ∧ x ≠ 95 ∧ x ≠ 120 ∧ x ≠ 88 := by
  rw [hexDigitVal_isSome_iff] at h
  refine ⟨?_, by omega, by omega, by omega, by omega, by omega, by omega⟩
  unfold pySpace
  simp only [Bool.or_eq_false_iff, beq_eq_false_iff_ne, ne_eq]
  omega

theorem mem_zfill (w : Nat) (l : List Nat) (x : Nat) (hx : x ∈ zfill w l) :
    x = 48 ∨ x ∈ l := by
  rcases List.mem_append.mp hx with hx | hx
  · exact Or.inl (List.eq_of_mem_replicate hx)
  · exact Or.inr hx

theorem mem_natHex_digit (n x : Nat) (hx : x ∈ natHex n) :
    (hexDigitVal x).isSome = true := by
  obtain ⟨d, hd, rfl⟩ := natHexAux_mem (n + 1) n (Nat.lt_succ_self n) x hx
  simp [hexDigitVal_hexChar d hd]

theorem zfill2_natHex_digit (n x : Nat) (hx : x ∈ zfill 2 (natHex n)) :
    (hexDigitVal x).isSome = true := by
  rcases mem_zfill 2 (natHex n) x hx with rfl | hx
  · simp [hexDigitVal]
  · exact mem_natHex_digit n x hx

theorem zfill1_natHex_digit (n x : Nat) (hx : x ∈ zfill 1 (natHex n)) :
    (hexDigitVal x).isSome = true := by
  rcases mem_zfill 1 (natHex n) x hx with rfl | hx
  · simp [hexDigitVal]
  · exact mem_natHex_digit n x hx

theorem parseMag_all_digits (l : List Nat) (hne : l ≠ [])
    (h : ∀ x ∈ l, (hexDigitVal x).isSome = true) : parseMag l = some (hexVal 0 l) := by
  match l with
  | [] => exact absurd rfl hne
  | [n] =>
    rw [parseMag]
    exact hexBody_all_digits [n] (by simp) h
  | n :: x :: rest =>
    rw [parseMag, if_neg]
    · exact hexBody_all_digits _ (by simp) h
    · have := (hexDigit_not_special x (h x (by simp))).2.2.2.2.2
      rintro ⟨-, hx | hx⟩ <;> omega

theorem hexVal_zfill (w : Nat) (l : List Nat) : hexVal 0 (zfill w l) = hexVal 0 l := by
  unfold zfill
  generalize (w - l.length) = k
  induction k with
  | zero => rfl
  | succ j ih =>
    rw [List.replicate_succ, List.cons_append]
    show hexVal (0 * 16 + (hexDigitVal 48).getD 0) (List.replicate j 48 ++ l) = _
    simpa [hexDigitVal] using ih

theorem hexVal_natHex (n : Nat) : hexVal 0 (natHex n) = n := by
  rw [natHex, hexVal_natHexAux (n + 1) n (Nat.lt_succ_self n) 0]
  simp

theorem zfill2_length (l : List Nat) : (zfill 2 l).length = max 2 l.length := by
  unfold zfill
  simp [List.length_append, List.length_replicate]
  omega

theorem pyIntHex_eq_of_stripWs (l : List Nat) (n : Nat) (rest : List Nat)
    (h : stripWs l = n :: rest) :
    pyIntHex l = if n = 43 then (parseMag rest).map Int.ofNat
      else if n = 45 then (parseMag rest).map (fun m => -(Int.ofNat m))
      else (parseMag (n :: rest)).map Int.ofNat := by
  rw [pyIntHex, h]

theorem pyIntHex_fmt02x (v : Int) : pyIntHex (fmt02x v) = some v := by
  by_cases hv : v < 0
  · rw [fmt02x, if_pos hv]
    have hdig : ∀ x ∈ zfill 1 (natHex v.natAbs), (hexDigitVal x).isSome = true :=
      zfill1_natHex_digit v.natAbs
    have hnosp : ∀ x ∈ (45 : Nat) :: zfill 1 (natHex v.natAbs), pySpace x = false := by
      intro x hx
      rcases List.mem_cons.mp hx with rfl | hx
      · rfl
      · exact (hexDigit_not_special x (hdig x hx)).1
    rw [pyIntHex_eq_of_stripWs _ _ _ (stripWs_eq_self _ hnosp)]
    have h1 : zfill 1 (natHex v.natAbs) = natHex v.natAbs := by
      unfold zfill
      have := natHexAux_ne_nil (v.natAbs + 1) v.natAbs (Nat.lt_succ_self _)
      have hlen : 0 < (natHex v.natAbs).length := List.length_pos.mpr this
      rw [show 1 - (natHex v.natAbs).length = 0 by omega]
      rfl
    have hne : natHex v.natAbs ≠ [] := by
      rw [natHex]
      exact natHexAux_ne_nil _ _ (Nat.lt_succ_self _)
    rw [if_neg (by decide), if_pos rfl, h1,
      parseMag_all_digits _ hne (fun x hx => mem_natHex_digit _ x hx), hexVal_natHex]
    show some (-(Int.ofNat v.natAbs)) = some v
    congr 1
    have habs : (Int.ofNat v.natAbs) = -v := by
      rw [Int.ofNat_eq_natCast, Int.ofNat_natAbs_of_nonpos (le_of_lt hv)]
    rw [habs, neg_neg]
  · rw [fmt02x, if_neg hv]
    have hdig := zfill2_natHex_digit v.toNat
    have hnosp : ∀ x ∈ zfill 2 (natHex v.toNat), pySpace x = false :=
      fun x hx => (hexDigit_not_special x (hdig x hx)).1
    have hlen : 2 ≤ (zfill 2 (natHex v.toNat)).length := by
      rw [zfill2_length]
      omega
    match hl : zfill 2 (natHex v.toNat), hlen with
    | a :: b :: rest, _ =>
      rw [pyIntHex_eq_of_stripWs _ a (b :: rest) (by rw [← hl]; exact stripWs_eq_self _ hnosp)]
      have ha := hdig a (by rw [hl]; simp)
      have hb := hdig b (by rw [hl]; simp)
      have hasp := hexDigit_not_special a ha
      have hbsp := hexDigit_not_special b hb
      rw [if_neg hasp.2.1, if_neg hasp.2.2.1]
      have hpm : parseMag (a :: b :: rest) = some (hexVal 0 (a :: b :: rest)) := by
        apply parseMag_all_digits _ (by simp)
        intro x hx
        exact hdig x (by rw [hl]; exact hx)
      rw [hpm]
      have : hexVal 0 (a :: b :: rest) = v.toNat := by
        rw [← hl, hexVal_zfill, hexVal_natHex]
      rw [this]
      show some (Int.ofNat v.toNat) = some v
      congr 1
      exact Int.toNat_of_nonneg (not_lt.mp hv)


theorem fmt02x_no_colon (v : Int) (x : Nat) (hx : x ∈ fmt02x v) : x ≠ 58 := by
  rw [fmt02x] at hx
  split at hx
  · rcases List.mem_cons.mp hx with rfl | hx
    · omega
    · exact (hexDigit_not_special x (zfill1_natHex_digit _ x hx)).2.2.2.1
  · exact (hexDigit_not_special x (zfill2_natHex_digit _ x hx)).2.2.2.1

theorem splitColon_no_colon (t : List Nat) (h : ∀ x ∈ t, x ≠ 58) :
    splitColon t = [t] := by
  induction t with
  | nil => rfl
  | cons n rest ih =>
    have hn : ¬ n = 58 := h n (List.mem_cons_self _ _)
    rw [splitColon, if_neg hn, ih (fun x hx => h x (List.mem_cons_of_mem _ hx))]

theorem splitColon_append (t r : List Nat) (h : ∀ x ∈ t, x ≠ 58) :
    splitColon (t ++ 58 :: r) = t :: splitColon r := by
  induction t with
  | nil => simp [splitColon]
  | cons n rest ih =>
    have hn : ¬ n = 58 := h n (List.mem_cons_self _ _)
    rw [List.cons_append, splitColon, if_neg hn,
      ih (fun x hx => h x (List.mem_cons_of_mem _ hx))]

theorem splitColon_joinColon (ts : List (List Nat)) (hne : ts ≠ [])
    (h : ∀ t ∈ ts, ∀ x ∈ t, x ≠ 58) : splitColon (joinColon ts) = ts := by
  induction ts with
  | nil => exact absurd rfl hne
  | cons t ts ih =>
    cases ts with
    | nil =>
      rw [joinColon]
      exact splitColon_no_colon t (h t (List.mem_cons_self _ _))
    | cons t2 ts2 =>
      rw [joinColon, splitColon_append t _ (h t (List.mem_cons_self _ _)),
        ih (List.cons_ne_nil _ _) (fun u hu => h u (List.mem_cons_of_mem _ hu))]
      exact fun hh => List.noConfusion hh

theorem mapPyIntHex_fmt02x (vs : List Int) :
    mapPyIntHex (vs.map fmt02x) = some vs := by
  induction vs with
  | nil => rfl
  | cons v vs ih =>
    rw [List.map_cons, mapPyIntHex, pyIntHex_fmt02x, ih]

theorem mapPyIntHex_length (ts : List (List Nat)) (vs : List Int)
    (h : mapPyIntHex ts = some vs) : ts.length = vs.length := by
  induction ts generalizing vs with
  | nil =>
    cases h
    rfl
  | cons t ts ih =>
    rw [mapPyIntHex] at h
    cases hp : pyIntHex t with
    | none => rw [hp] at h; cases h
    | some v =>
      rw [hp] at h
      cases hm : mapPyIntHex ts with
      | none => rw [hm] at h; cases h
      | some ws =>
        rw [hm] at h
        cases h
        simp [ih ws hm]

theorem format_mac_c_idem (l t : List Nat) (h : format_mac_c l = some t) :
    format_mac_c t = some t := by
  rw [format_mac_c] at h
  cases hm : mapPyIntHex (splitColon l) with
  | none => rw [hm] at h; cases h
  | some vs =>
    rw [hm] at h
    have ht : t = joinColon (vs.map fmt02x) := by
      cases h
      rfl
    have hvs : vs ≠ [] := by
      intro hnil
      subst hnil
      have := mapPyIntHex_length _ _ hm
      exact splitColon_ne_nil l (List.length_eq_zero.mp this)
    have hsplit : splitColon t = vs.map fmt02x := by
      rw [ht]
      exact splitColon_joinColon _ (by simpa using hvs)
        (by
          intro u hu x hx
          obtain ⟨v, hv, rfl⟩ := List.mem_map.mp hu
          exact fmt02x_no_colon v x hx)
    rw [format_mac_c, hsplit, mapPyIntHex_fmt02x]
    rw [ht]


theorem mem_joinColon (ts : List (List Nat)) (x : Nat) (hx : x ∈ joinColon ts) :
    x = 58 ∨ ∃ t ∈ ts, x ∈ t := by
  induction ts with
  | nil =>
    rw [joinColon] at hx
    cases hx
  | cons t ts ih =>
    cases ts with
    | nil =>
      rw [joinColon] at hx
      exact Or.inr ⟨t, List.mem_singleton.mpr rfl, hx⟩
    | cons t2 ts2 =>
      rw [joinColon] at hx
      · rcases List.mem_append.mp hx with hx | hx
        · exact Or.inr ⟨t, List.mem_cons_self _ _, hx⟩
        · rcases List.mem_cons.mp hx with rfl | hx
          · exact Or.inl rfl
          · rcases ih hx with h | ⟨u, hu, hxu⟩
            · exact Or.inl h
            · exact Or.inr ⟨u, List.mem_cons_of_mem _ hu, hxu⟩
      · exact fun hh => List.noConfusion hh

theorem fmt02x_lt128 (v : Int) (x : Nat) (hx : x ∈ fmt02x v) : x < 128 := by
  rw [fmt02x] at hx
  split at hx
  · rcases List.mem_cons.mp hx with rfl | hx
    · omega
    · rcases mem_zfill _ _ _ hx with rfl | hx
      · omega
      · obtain ⟨d, hd, rfl⟩ := natHexAux_mem _ _ (Nat.lt_succ_self _) x hx
        exact hexChar_lt128 d hd
  · rcases mem_zfill _ _ _ hx with rfl | hx
    · omega
    · obtain ⟨d, hd, rfl⟩ := natHexAux_mem _ _ (Nat.lt_succ_self _) x hx
      exact hexChar_lt128 d hd

theorem format_mac_c_lt128 (l t : List Nat) (h : format_mac_c l = some t) :
    ∀ x ∈ t, x < 128 := by
  intro x hx
  rw [format_mac_c] at h
  cases hm : mapPyIntHex (splitColon l) with
  | none => rw [hm] at h; cases h
  | some vs =>
    rw [hm] at h
    cases h
    rcases mem_joinColon _ x hx with rfl | ⟨u, hu, hxu⟩
    · omega
    · obtain ⟨v, hv, rfl⟩ := List.mem_map.mp hu
      exact fmt02x_lt128 v x hxu

theorem toNat_ofNat_lt128 (n : Nat) (h : n < 128) : (Char.ofNat n).toNat = n := by
  have hv : n.isValidChar := Or.inl (by omega)
  simp [Char.ofNat, Char.ofNatAux, Char.toNat, UInt32.toNat, hv]

theorem codes_ofCodes (l : List Nat) (h : ∀ x ∈ l, x < 128) :
    codes (ofCodes l) = l := by
  unfold codes ofCodes
  show (l.map Char.ofNat).map Char.toNat = l
  rw [List.map_map]
  exact List.map_congr_left (fun x hx => toNat_ofNat_lt128 x (h x hx)) |>.trans (List.map_id l)

theorem format_mac_idem_str (s t : String) (h : format_mac s = some t) :
    format_mac t = some t := by
  rw [format_mac] at h
  cases hc : format_mac_c (codes s) with
  | none => rw [hc] at h; cases h
  | some u =>
    rw [hc] at h
    have ht : t = ofCodes u := by
      cases h
      rfl
    have hct : codes t = u := by
      rw [ht]
      exact codes_ofCodes u (format_mac_c_lt128 _ _ hc)
    rw [format_mac, hct, format_mac_c_idem _ _ hc]
    rw [ht]
    rfl

theorem format_mac_lower_str (s t : String) (h : lowerCodes s = lowerCodes t) :
    format_mac s = format_mac t := by
  rw [format_mac, format_mac, ← format_mac_c_map_lowerN (codes s),
    ← format_mac_c_map_lowerN (codes t)]
  rw [show (codes s).map lowerN = lowerCodes s from rfl,
    show (codes t).map lowerN = lowerCodes t from rfl, h]


theorem mapPyIntHex_eq_none_iff (ts : List (List Nat)) :
    mapPyIntHex ts = none ↔ ∃ t ∈ ts, pyIntHex t = none := by
  induction ts with
  | nil => simp [mapPyIntHex]
  | cons t ts ih =>
    rw [mapPyIntHex]
    cases hp : pyIntHex t with
    | none =>
      simp only [hp]
      exact ⟨fun _ => ⟨t, List.mem_cons_self _ _, hp⟩, fun _ => trivial⟩
    | some v =>
      cases hm : mapPyIntHex ts with
      | none =>
        simp only [hp, hm]
        refine ⟨fun _ => ?_, fun _ => trivial⟩
        obtain ⟨u, hu, hpu⟩ := ih.mp hm
        exact ⟨u, List.mem_cons_of_mem _ hu, hpu⟩
      | some vs =>
        simp only [hp, hm]
        constructor
        · intro h
          cases h
        · rintro ⟨u, hu, hpu⟩
          rcases List.mem_cons.mp hu with rfl | hu
          · rw [hp] at hpu
            cases hpu
          · have hnone := ih.mpr ⟨u, hu, hpu⟩
            rw [hm] at hnone
            cases hnone

theorem format_mac_eq_none_iff (s : String) :
    format_mac s = none ↔ ∃ tok ∈ splitColon (codes s), pyIntHex tok = none := by
  constructor
  · intro h
    rw [format_mac] at h
    cases hc : format_mac_c (codes s) with
    | none =>
      rw [format_mac_c] at hc
      cases hm : mapPyIntHex (splitColon (codes s)) with
      | none => exact (mapPyIntHex_eq_none_iff _).mp hm
      | some vs =>
        rw [hm] at hc
        cases hc
    | some u =>
      rw [hc] at h
      cases h
  · rintro ⟨u, hu, hpu⟩
    have hm : mapPyIntHex (splitColon (codes s)) = none :=
      (mapPyIntHex_eq_none_iff _).mpr ⟨u, hu, hpu⟩
    rw [format_mac, format_mac_c, hm]
    rfl

theorem natHexAux_length_one (fuel n : Nat) (hf : 0 < fuel) (h : n < 16) :
    (natHexAux fuel n).length = 1 := by
  cases fuel with
  | zero => omega
  | succ f =>
    rw [natHexAux, if_pos h]
    rfl

theorem natHex_length_le2 (n : Nat) (h : n < 256) : (natHex n).length ≤ 2 := by
  rw [natHex]
  by_cases h16 : n < 16
  · rw [natHexAux_length_one _ _ (Nat.succ_pos n) h16]
    omega
  · rw [natHexAux, if_neg h16, List.length_append,
      natHexAux_length_one n (n / 16) (by omega) (by omega)]
    rfl

theorem hexChar_range (d : Nat) (h : d < 16) :
    (48 ≤ hexChar d ∧ hexChar d ≤ 57) ∨ (97 ≤ hexChar d ∧ hexChar d ≤ 102) := by
  unfold hexChar
  split <;> omega

theorem mem_zfill2_natHex_range (n x : Nat) (hx : x ∈ zfill 2 (natHex n)) :
    (48 ≤ x ∧ x ≤ 57) ∨ (97 ≤ x ∧ x ≤ 102) := by
  rcases mem_zfill _ _ _ hx with rfl | hx
  · omega
  · obtain ⟨d, hd, rfl⟩ := natHexAux_mem _ _ (Nat.lt_succ_self _) x hx
    exact hexChar_range d hd

/-! ### Registry lemmas -/

theorem dictGet_dictSet_self (inst : Instances) (k : String) (v : Host) :
    dictGet (dictSet inst k v) k = some v := by
  induction inst with
  | nil => simp [dictSet, dictGet]
  | cons p rest ih =>
    obtain ⟨k', w⟩ := p
    by_cases hk : k' = k <;> simp [dictSet, dictGet, hk, ih]

theorem dictGet_eq_none_of_not_mem (inst : Instances) (k : String)
    (h : k ∉ inst.map Prod.fst) : dictGet inst k = none := by
  induction inst with
  | nil => rfl
  | cons p rest ih =>
    obtain ⟨k', w⟩ := p
    simp only [List.map_cons, List.mem_cons] at h
    push_neg at h
    have hk : ¬ k' = k := fun hh => h.1 hh.symm
    simp [dictGet, hk, ih h.2]

theorem RegOk_nil : RegOk [] := by
  intro p hp
  cases hp

theorem RegOk.mac_of_dictGet {inst : Instances} (hok : RegOk inst) {k : String}
    {h : Host} (hg : dictGet inst k = some h) : h.mac = k := by
  induction inst with
  | nil => cases hg
  | cons p rest ih =>
    obtain ⟨k', w⟩ := p
    by_cases hk : k' = k
    · simp [dictGet, hk] at hg
      subst hg
      exact hk ▸ hok ⟨k', w⟩ (List.mem_cons_self _ _)
    · simp [dictGet, hk] at hg
      exact ih (fun q hq => hok q (List.mem_cons_of_mem _ hq)) hg

theorem mem_dictSet {inst : Instances} {k : String} {v : Host}
    {p : String × Host} (hp : p ∈ dictSet inst k v) : p = (k, v) ∨ p ∈ inst := by
  induction inst with
  | nil => simpa [dictSet] using hp
  | cons q rest ih =>
    obtain ⟨k', w⟩ := q
    by_cases hk : k' = k
    · simp only [dictSet, if_pos hk, List.mem_cons] at hp
      rcases hp with hp | hp
      · exact Or.inl hp
      · exact Or.inr (List.mem_cons_of_mem _ hp)
    · simp only [dictSet, if_neg hk, List.mem_cons] at hp
      rcases hp with hp | hp
      · exact Or.inr (hp ▸ List.mem_cons_self _ _)
      · rcases ih hp with h1 | h1
        · exact Or.inl h1
        · exact Or.inr (List.mem_cons_of_mem _ h1)

theorem RegOk.dictSet {inst : Instances} (hok : RegOk inst) {k : String}
    {h : Host} (hm : h.mac = k) : RegOk (dictSet inst k h) := by
  intro p hp
  rcases mem_dictSet hp with rfl | hp
  · exact hm
  · exact hok p hp

theorem update_if_better_true (current v : Option String) :
    update_if_better true current v = if v.isSome then v else current := by
  cases v <;> simp [update_if_better]

/-- What one `Host(...)` call does when the identity is already in the
table: the three fields merge by `update_if_better`, `_updated` is reset
to `False`, `last_refresh` is rewritten, first-seen data survives. -/
theorem Host.call_known {inst : Instances} (hok : RegOk inst) {raw m : String}
    (hm : format_mac raw = some m) {h0 : Host} (hg : dictGet inst m = some h0)
    (ip name type : Option String) (wall now : Nat) :
    Host.call inst raw ip name type wall now = some (dictSet inst m
      { h0 with
        mac := m
        ip := if ip.isSome then ip else h0.ip
        name := if name.isSome then name else h0.name
        type := if type.isSome then type else h0.type
        updated := false
        last_refresh := now }) := by
  have hmac : h0.mac = m := hok.mac_of_dictGet hg
  simp [Host.call, hm, hg, hmac, update_if_better_true]

/-- What one `Host(...)` call does on a fresh identity. -/
theorem Host.call_new {inst : Instances} {raw m : String}
    (hm : format_mac raw = some m) (hg : dictGet inst m = none)
    (ip name type : Option String) (wall now : Nat) :
    Host.call inst raw ip name type wall now = some (dictSet inst m
      { mac := m, ip := ip, name := name, type := type, updated := false
        wall_up := wall, loop_up := now, task := true, last_refresh := now }) := by
  simp [Host.call, hm, hg, update_if_better]

/-! ### `heart_beat` trace lemmas -/

theorem HBTrace.evicted_terminal {evts : List HBEvt} {t : HBState}
    (h : HBTrace .evicted evts t) : t = .evicted := by
  cases h with
  | refl => rfl
  | cons step _ => cases step

theorem HBTrace.no_evict_aux {s t : HBState} {evts : List HBEvt}
    (h : HBTrace s evts t) (ht : t = HBState.cancelled) : HBEvt.evict ∉ evts := by
  induction h with
  | refl => simp
  | cons step tr ih =>
    simp only [List.mem_cons]
    rintro (rfl | hmem)
    · cases step with
      | evict dwell hd =>
        have hterm := tr.evicted_terminal
        rw [ht] at hterm
        exact HBState.noConfusion hterm
    · exact ih ht hmem

theorem HBTrace.cancelled_no_evict {s : HBState} {evts : List HBEvt}
    (h : HBTrace s evts .cancelled) : HBEvt.evict ∉ evts :=
  h.no_evict_aux rfl

theorem HBRun_of_no_evict (mac : String) (inst : Instances) (evts : List HBEvt)
    (h : HBEvt.evict ∉ evts) : HBRun mac inst evts = some inst := by
  induction evts with
  | nil => rfl
  | cons e rest ih =>
    simp only [List.mem_cons] at h
    push_neg at h
    have he : HBEffect mac inst e = some inst := by
      cases e
      · rfl
      · rfl
      · rfl
      · exact absurd rfl h.1
    simp [HBRun, he, ih h.2]

/-! ### Claim theorems -/

/-- C1 counterexample: upserting an existing identity with a new,
different, non-`None` address does change the address, but leaves the
dirty flag `false` — `__init__` resets `_updated` to `False` on every
construction and never sets it, contradicting the claim that the dirty
flag is set to true whenever a merge changes a field. -/
theorem C1_counterexample :
    ((Host.call [] "a:b" (some "1.1.1.1") none none 0 0).bind (fun i1 =>
      (Host.call i1 "a:b" (some "2.2.2.2") none none 0 1).bind (fun i2 =>
        dictGet i2 "0a:0b"))).map (fun h => (h.ip, h.updated)) =
      some (some "2.2.2.2", false) := by
  decide

/-- C1 (amended): on an upsert (Host construction) for an identity
already present, each of `_ip`/`_name`/`_type` ends up as the supplied
value exactly when that value is non-`None` (regardless of whether it
differs from the current value) and keeps its previous value otherwise;
the dirty flag is reset to `false` by every construction (it is set only
by the property-setter path `set_and_flag`); `last_refresh` is rewritten
on every upsert; first-seen data (`wall_up`) is unchanged. -/
theorem C1_merge_semantics (inst : Instances) (raw m : String) (h0 : Host)
    (ip name type : Option String) (wall now : Nat) (hok : RegOk inst)
    (hm : format_mac raw = some m) (hg : dictGet inst m = some h0) :
    ∃ inst' h1, Host.call inst raw ip name type wall now = some inst' ∧
      dictGet inst' m = some h1 ∧
      h1.ip = (if ip.isSome then ip else h0.ip) ∧
      h1.name = (if name.isSome then name else h0.name) ∧
      h1.type = (if type.isSome then type else h0.type) ∧
      h1.updated = false ∧
      h1.last_refresh = now ∧
      h1.wall_up = h0.wall_up ∧
      h1.mac = m := by
  refine ⟨_, _, Host.call_known hok hm hg ip name type wall now,
    dictGet_dictSet_self _ _ _, ?_, ?_, ?_, ?_, ?_, ?_, ?_⟩ <;> rfl

/-- C1 witness: a concrete merge through `C1_merge_semantics`. -/
theorem C1_merge_semantics_witness :
    ∃ inst' h1,
      Host.call [("0a:0b",
        { mac := "0a:0b", ip := some "1.1.1.1", name := none, type := none
          updated := false, wall_up := 3, loop_up := 4, task := true
          last_refresh := 4 })] "A:B" (some "2.2.2.2") none none 8 9 = some inst' ∧
      dictGet inst' "0a:0b" = some h1 ∧
      h1.ip = (if (some "2.2.2.2" : Option String).isSome then some "2.2.2.2" else some "1.1.1.1") ∧
      h1.name = (if (none : Option String).isSome then none else none) ∧
      h1.type = (if (none : Option String).isSome then none else none) ∧
      h1.updated = false ∧
      h1.last_refresh = 9 ∧
      h1.wall_up = 3 ∧
      h1.mac = "0a:0b" :=
  C1_merge_semantics _ "A:B" "0a:0b"
    { mac := "0a:0b", ip := some "1.1.1.1", name := none, type := none
      updated := false, wall_up := 3, loop_up := 4, task := true, last_refresh := 4 }
    (some "2.2.2.2") none none 8 9 (by intro p hp; simp at hp; simp [hp])
    (by decide) (by decide)

/-- C2 counterexample: after creating and destroying the entry for
`0a:0b`, destroying it again does not leave the registry unchanged — it
raises `KeyError` (`dict.pop` with no default), modelled by `none`.  The
remove operation is therefore not an idempotent no-op on an absent
identity. -/
theorem C2_counterexample :
    (Host.call [] "a:b" none none none 0 0).bind
        (fun i1 => Host.destroy i1 "0a:0b") = some [] ∧
      ((Host.call [] "a:b" none none none 0 0).bind
        (fun i1 => Host.destroy i1 "0a:0b")).bind
          (fun i2 => Host.destroy i2 "0a:0b") = none := by
  constructor <;> decide

/-- C2 (amended): `Host.destroy` deletes the entry for the given
identity when present (under unique keys the identity is gone
afterwards), but when no entry with that identity is present it raises
`KeyError` — `dict.pop(self.mac)` is called with no default — rather
than being an idempotent no-op. -/
theorem C2_destroy_semantics :
    (∀ (inst : Instances) (k : String) (h : Host),
        (inst.map Prod.fst).Nodup → dictGet inst k = some h →
        ∃ inst', Host.destroy inst k = some inst' ∧ dictGet inst' k = none) ∧
      (∀ (inst : Instances) (k : String),
        dictGet inst k = none → Host.destroy inst k = none) := by
  constructor
  · intro inst k h hnd hg
    induction inst with
    | nil => cases hg
    | cons p rest ih =>
      obtain ⟨k', w⟩ := p
      simp only [List.map_cons, List.nodup_cons] at hnd
      by_cases hk : k' = k
      · refine ⟨rest, by simp [Host.destroy, dictPop, hk], ?_⟩
        exact dictGet_eq_none_of_not_mem rest k (hk ▸ hnd.1)
      · simp only [dictGet, if_neg hk] at hg
        obtain ⟨rest', hpop, hnone⟩ := ih hnd.2 hg
        refine ⟨(k', w) :: rest', ?_, by simp [dictGet, hk, hnone]⟩
        simp only [Host.destroy, dictPop, if_neg hk] at hpop ⊢
        simp [hpop]
  · intro inst k hg
    induction inst with
    | nil => rfl
    | cons p rest ih =>
      obtain ⟨k', w⟩ := p
      by_cases hk : k' = k <;> simp [dictGet, hk] at hg ⊢
      · simp [Host.destroy, dictPop, hk] at ih ⊢
        simp [ih hg]

/-- C2 witness: destroying a present entry removes it; destroying from
a registry without the identity raises. -/
theorem C2_destroy_semantics_witness :
    (∃ inst', Host.destroy [("0a:0b",
      { mac := "0a:0b", ip := none, name := none, type := none, updated := false
        wall_up := 0, loop_up := 0, task := true, last_refresh := 0 })] "0a:0b" =
        some inst' ∧ dictGet inst' "0a:0b" = none) ∧
      Host.destroy [] "0a:0b" = none :=
  ⟨C2_destroy_semantics.1 _ "0a:0b"
    { mac := "0a:0b", ip := none, name := none, type := none, updated := false
      wall_up := 0, loop_up := 0, task := true, last_refresh := 0 }
    (by decide) (by decide),
   C2_destroy_semantics.2 [] "0a:0b" (by decide)⟩

/-- Helper for C3: once the table is exactly `[(m, h)]` with
`h.mac = m`, any further sequence of upserts whose raw macs format to
`m` keeps the table a single entry for `m` with `mac` and first-seen
time unchanged. -/
theorem runUpserts_single (rest : List UpsertArgs) :
    ∀ (m : String) (h : Host), h.mac = m →
      (∀ b ∈ rest, format_mac b.raw = some m) →
      ∃ h', runUpserts [(m, h)] rest = some [(m, h')] ∧ h'.mac = m ∧
        h'.wall_up = h.wall_up := by
  induction rest with
  | nil => exact fun m h hm _ => ⟨h, rfl, hm, rfl⟩
  | cons b rest ih =>
    intro m h hm hall
    have hb : format_mac b.raw = some m := hall b (List.mem_cons_self _ _)
    have hok : RegOk [(m, h)] := by
      intro p hp
      simp only [List.mem_singleton] at hp
      simp [hp, hm]
    have hg : dictGet [(m, h)] m = some h := by simp [dictGet]
    have hcall := Host.call_known hok hb hg b.ip b.name b.type b.wall b.now
    obtain ⟨h', hrun, hm', hw⟩ := ih m
      { h with
        mac := m
        ip := if b.ip.isSome then b.ip else h.ip
        name := if b.name.isSome then b.name else h.name
        type := if b.type.isSome then b.type else h.type
        updated := false
        last_refresh := b.now } rfl
      (fun c hc => hall c (List.mem_cons_of_mem _ hc))
    refine ⟨h', ?_, hm', by simpa using hw⟩
    simp only [runUpserts, hcall]
    simpa [dictSet] using hrun

/-- C3: any nonempty sequence of `Host(...)` upserts whose raw strings
all normalize to the same identity `m`, run on an empty registry, ends
with exactly one entry, keyed `m`, whose `mac` attribute is `m` and
whose first-seen timestamp is the one recorded by the first upsert
(repeated construction keeps mutating that same instance rather than
making a new one). -/
theorem C3_registry_uniqueness (a : UpsertArgs) (rest : List UpsertArgs)
    (m : String) (ha : format_mac a.raw = some m)
    (hrest : ∀ b ∈ rest, format_mac b.raw = some m) :
    ∃ h, runUpserts [] (a :: rest) = some [(m, h)] ∧ h.mac = m ∧
      h.wall_up = a.wall := by
  have hcall := @Host.call_new [] a.raw m ha (by rfl) a.ip a.name a.type a.wall a.now
  obtain ⟨h', hrun, hm', hw⟩ := runUpserts_single rest m
    { mac := m, ip := a.ip, name := a.name, type := a.type, updated := false
      wall_up := a.wall, loop_up := a.now, task := true, last_refresh := a.now }
    rfl hrest
  refine ⟨h', ?_, hm', by simpa using hw⟩
  simp only [runUpserts, hcall]
  simpa [dictSet] using hrun

/-- C3 witness: three upserts of differently-cased spellings of one
identity leave one entry with the normalized mac and the first wall
clock reading. -/
theorem C3_registry_uniqueness_witness :
    ∃ h, runUpserts []
        [⟨"a:b", none, none, none, 10, 0⟩,
         ⟨"A:B", some "1.1.1.1", none, none, 20, 1⟩,
         ⟨"0A:0b", none, some "nas", none, 30, 2⟩] = some [("0a:0b", h)] ∧
      h.mac = "0a:0b" ∧ h.wall_up = 10 :=
  C3_registry_uniqueness ⟨"a:b", none, none, none, 10, 0⟩
    [⟨"A:B", some "1.1.1.1", none, none, 20, 1⟩,
     ⟨"0A:0b", none, some "nas", none, 30, 2⟩] "0a:0b" (by decide)
    (by intro b hb; simp at hb; rcases hb with hb | hb <;> subst hb <;> decide)

/-- C4 counterexample: `format_mac` does not fail on a wrong token
count — the single-token input `"abc"` (not six octets) is accepted
unchanged — and an accepted input need not consist of two-hex-digit
octets: `"fff:aa"` round-trips with a three-digit octet, because
`f"{token:02x}"` only zero-pads to a minimum width. -/
theorem C4_counterexample :
    (splitColon (codes "abc")).length = 1 ∧ format_mac "abc" = some "abc" ∧
      format_mac "fff:aa" = some "fff:aa" ∧
      ∃ tok ∈ splitColon (codes "fff:aa"), tok.length ≠ 2 := by
  refine ⟨by decide, by decide, by decide, ⟨[102, 102, 102], by decide, by decide⟩⟩

/-- C4 (amended): `Host.format_mac` returns no value exactly when some
colon-separated token is not valid hexadecimal for Python's
`int(tok, 16)` — the token count is never validated — and for every
accepted input whose token values all fit in one byte the result is the
address as lowercase, colon-separated, two-hex-digit octets. -/
theorem C4_normalization_semantics :
    (∀ s : String, format_mac s = none ↔
      ∃ tok ∈ splitColon (codes s), pyIntHex tok = none) ∧
    (∀ (s t : String) (vs : List Int), format_mac s = some t →
      mapPyIntHex (splitColon (codes s)) = some vs →
      (∀ v ∈ vs, 0 ≤ v ∧ v ≤ 255) →
      ∀ tok ∈ splitColon (codes t), tok.length = 2 ∧
        ∀ x ∈ tok, (48 ≤ x ∧ x ≤ 57) ∨ (97 ≤ x ∧ x ≤ 102)) := by
  refine ⟨format_mac_eq_none_iff, ?_⟩
  intro s t vs hfm hmap hv
  have hc : format_mac_c (codes s) = some (joinColon (vs.map fmt02x)) := by
    rw [format_mac_c, hmap]
  rw [format_mac, hc] at hfm
  have ht : t = ofCodes (joinColon (vs.map fmt02x)) := by
    cases hfm
    rfl
  have hct : codes t = joinColon (vs.map fmt02x) := by
    rw [ht]
    exact codes_ofCodes _ (format_mac_c_lt128 _ _ hc)
  have hvs : vs ≠ [] := by
    intro hnil
    subst hnil
    exact splitColon_ne_nil (codes s) (List.length_eq_zero.mp (mapPyIntHex_length _ _ hmap))
  have hsplit : splitColon (codes t) = vs.map fmt02x := by
    rw [hct]
    refine splitColon_joinColon _ (by simpa using hvs) ?_
    intro u hu x hx
    obtain ⟨v, hvm, rfl⟩ := List.mem_map.mp hu
    exact fmt02x_no_colon v x hx
  intro tok htok
  rw [hsplit] at htok
  obtain ⟨v, hvm, rfl⟩ := List.mem_map.mp htok
  obtain ⟨hv0, hv255⟩ := hv v hvm
  have hform : fmt02x v = zfill 2 (natHex v.toNat) := by
    rw [fmt02x, if_neg (by omega)]
  have hlt : v.toNat < 256 := by omega
  constructor
  · rw [hform, zfill2_length]
    have := natHex_length_le2 v.toNat hlt
    omega
  · intro x hx
    rw [hform] at hx
    exact mem_zfill2_natHex_range v.toNat x hx

/-- C4 witness: the amended claim at the non-hex input `"q"` and at the
accepted input `"A:ff"` whose normal form is `"0a:ff"`. -/
theorem C4_normalization_semantics_witness :
    (format_mac "q" = none ↔ ∃ tok ∈ splitColon (codes "q"), pyIntHex tok = none) ∧
    ∀ tok ∈ splitColon (codes "0a:ff"), tok.length = 2 ∧
      ∀ x ∈ tok, (48 ≤ x ∧ x ≤ 57) ∨ (97 ≤ x ∧ x ≤ 102) :=
  ⟨C4_normalization_semantics.1 "q",
   C4_normalization_semantics.2 "A:ff" "0a:ff" [10, 255] (by decide) (by decide)
     (by decide)⟩

/-- C5: `Host.format_mac` is idempotent — any value it returns is a
fixed point — and case-insensitive: two raw strings that agree after
ASCII lowercasing (differ only in letter case) normalize identically. -/
theorem C5_normalization_algebra :
    (∀ s t : String, format_mac s = some t → format_mac t = some t) ∧
    (∀ s t : String, lowerCodes s = lowerCodes t → format_mac s = format_mac t) :=
  ⟨format_mac_idem_str, format_mac_lower_str⟩

/-- C5 witness: the normal form of `"a:b"` is a fixed point, and the
upper- and lowercase spellings of `aa:bb` normalize identically. -/
theorem C5_normalization_algebra_witness :
    format_mac "0a:0b" = some "0a:0b" ∧ format_mac "AA:BB" = format_mac "aa:bb" :=
  ⟨C5_normalization_algebra.1 "a:b" "0a:0b" (by decide),
   C5_normalization_algebra.2 "AA:BB" "aa:bb" (by decide)⟩

/-- C6: a `None` address in an upsert never overwrites a present one:
after upserting `(id, ip="v")` and then `(id, ip=None)`, the entry's
address is still `some v` — `update_if_better` assigns only non-`None`
values to an existing attribute. -/
theorem C6_none_never_overwrites (inst : Instances) (raw1 raw2 m v : String)
    (nm1 ty1 nm2 ty2 : Option String) (w1 n1 w2 n2 : Nat) (hok : RegOk inst)
    (hm1 : format_mac raw1 = some m) (hm2 : format_mac raw2 = some m) :
    ∃ i1 i2 h2, Host.call inst raw1 (some v) nm1 ty1 w1 n1 = some i1 ∧
      Host.call i1 raw2 none nm2 ty2 w2 n2 = some i2 ∧
      dictGet i2 m = some h2 ∧ h2.ip = some v := by
  obtain ⟨i1, h1, hc1, hg1, hip1, hmac1, hok1⟩ :
      ∃ i1 h1, Host.call inst raw1 (some v) nm1 ty1 w1 n1 = some i1 ∧
        dictGet i1 m = some h1 ∧ h1.ip = some v ∧ h1.mac = m ∧ RegOk i1 := by
    cases hg : dictGet inst m with
    | none =>
      refine ⟨dictSet inst m
          { mac := m, ip := some v, name := nm1, type := ty1, updated := false
            wall_up := w1, loop_up := n1, task := true, last_refresh := n1 },
        { mac := m, ip := some v, name := nm1, type := ty1, updated := false
          wall_up := w1, loop_up := n1, task := true, last_refresh := n1 },
        ?_, dictGet_dictSet_self _ _ _, rfl, rfl, hok.dictSet rfl⟩
      exact Host.call_new hm1 hg (some v) nm1 ty1 w1 n1
    | some h0 =>
      refine ⟨dictSet inst m
          { h0 with
            mac := m
            ip := some v
            name := if nm1.isSome then nm1 else h0.name
            type := if ty1.isSome then ty1 else h0.type
            updated := false
            last_refresh := n1 },
        { h0 with
          mac := m
          ip := some v
          name := if nm1.isSome then nm1 else h0.name
          type := if ty1.isSome then ty1 else h0.type
          updated := false
          last_refresh := n1 },
        ?_, dictGet_dictSet_self _ _ _, rfl, rfl, hok.dictSet rfl⟩
      have hc := Host.call_known hok hm1 hg (some v) nm1 ty1 w1 n1
      simpa using hc
  have hc2 := Host.call_known hok1 hm2 hg1 none nm2 ty2 w2 n2
  refine ⟨i1, _, _, hc1, hc2, dictGet_dictSet_self _ _ _, ?_⟩
  simp [hip1]

/-- C6 witness: the concrete scenario of the spec, `"10.0.0.1"` then
`None`. -/
theorem C6_none_never_overwrites_witness :
    ∃ i1 i2 h2, Host.call [] "a:b" (some "10.0.0.1") none none 0 0 = some i1 ∧
      Host.call i1 "a:b" none none none 0 5 = some i2 ∧
      dictGet i2 "0a:0b" = some h2 ∧ h2.ip = some "10.0.0.1" :=
  C6_none_never_overwrites [] "a:b" "a:b" "0a:0b" "10.0.0.1" none none none none
    0 0 0 5 RegOk_nil (by decide) (by decide)

/-- C7: the enrichment stage never creates an entry: when the formatted
router-reported mac is not a key of the instance table,
`name_resolver`'s per-record body leaves the table (hence its entry set
and size) exactly unchanged. -/
theorem C7_enrichment_no_create (inst : Instances) (rmac m : String)
    (rname rtype : Option String) (hm : format_mac rmac = some m)
    (hg : dictGet inst m = none) :
    name_resolver_step inst rmac rname rtype = inst := by
  simp [name_resolver_step, hm, hg]

/-- C7 witness: an unknown identity from the router changes nothing. -/
theorem C7_enrichment_no_create_witness :
    name_resolver_step [] "a:b" (some "ghost") (some "phone") = [] :=
  C7_enrichment_no_create [] "a:b" "0a:0b" (some "ghost") (some "phone")
    (by decide) (by decide)

/-- C8: the resolution stage's three probe outcomes: a non-zero return
code soft-skips, a successful probe answering "entries no match found"
soft-skips, and a successful probe (no "no match" marker) whose output
does not parse into the expected shape raises `TypeError`. -/
theorem C8_resolver_outcomes :
    (∀ (rc : Int) (out : String) (p : Option ArpParsed), rc ≠ 0 →
        mac_resolver_step rc out p = .skip) ∧
      (∀ (out : String) (p : Option ArpParsed), noMatchIn out = true →
        mac_resolver_step 0 out p = .skip) ∧
      (∀ out : String, noMatchIn out = false →
        mac_resolver_step 0 out none = .raiseError) := by
  refine ⟨fun rc out p hrc => by simp [mac_resolver_step, hrc],
    fun out p hnm => by simp [mac_resolver_step, hnm],
    fun out hnm => by simp [mac_resolver_step, hnm]⟩

/-- C8 witness: the three outcomes at concrete probe results. -/
theorem C8_resolver_outcomes_witness :
    mac_resolver_step 1 "x" none = .skip ∧
      mac_resolver_step 0 "ip (1.2.3.4) -- entries no match found" none = .skip ∧
      mac_resolver_step 0 "garbage" none = .raiseError :=
  ⟨C8_resolver_outcomes.1 1 "x" none (by decide),
   C8_resolver_outcomes.2.1 "ip (1.2.3.4) -- entries no match found" none (by decide),
   C8_resolver_outcomes.2.2 "garbage" (by decide)⟩

/-- C9: cancellation never evicts: any `heart_beat` execution that ends
in the `cancelled` state — the `CancelledError` delivered at the
suspension point and re-raised — contains no `evict` event, so running
its effects leaves the registry untouched (no `Host.destroy` call). -/
theorem C9_cancellation_never_evicts (mac : String) (inst : Instances)
    (evts : List HBEvt) (h : HBTrace .checking evts .cancelled) :
    HBRun mac inst evts = some inst :=
  HBRun_of_no_evict mac inst evts h.cancelled_no_evict

/-- C9 witness: a concrete run that sleeps once and is then cancelled. -/
theorem C9_cancellation_never_evicts_witness :
    HBRun "0a:0b" [("0a:0b",
      { mac := "0a:0b", ip := none, name := none, type := none, updated := false
        wall_up := 0, loop_up := 0, task := true, last_refresh := 0 })]
      [HBEvt.enterSleep, HBEvt.cancel] = some [("0a:0b",
      { mac := "0a:0b", ip := none, name := none, type := none, updated := false
        wall_up := 0, loop_up := 0, task := true, last_refresh := 0 })] :=
  C9_cancellation_never_evicts _ _ _
    (HBTrace.cons (HBStep.enterSleep 0 (by omega))
      (HBTrace.cons HBStep.cancel (HBTrace.refl _)))

/-- C10: a raw string whose normalization fails is not skipped and does
not produce an entry: `Host.__new__` asserts `format_mac(mac) is not
None`, so construction fails (the `AssertionError`, modelled by
`none`). -/
theorem C10_assert_on_malformed (inst : Instances) (raw : String)
    (ip name type : Option String) (wall now : Nat)
    (hm : format_mac raw = none) :
    Host.call inst raw ip name type wall now = none := by
  simp [Host.call, hm]

/-- C10 witness: constructing from the non-hex string `"zz"` raises. -/
theorem C10_assert_on_malformed_witness :
    Host.call [] "zz" none none none 0 0 = none :=
  C10_assert_on_malformed [] "zz" none none none 0 0 (by decide)

end FreenasManager
